import Mathlib

/-!
Verification of the polyomino tiling engine (`src/polyomino.rs`, `src/lib.rs`)
against its natural-language specification.

The geometry layer (`Point`, `Tile`), the exact-cover matrix construction
(`Game::build_matrix`) and the solution decoders (`Game::solution` of
`polyomino.rs`, `JsGame::solution` of `lib.rs`) are embedded as executable
Lean functions.  Machine integers (`isize`) become `Int`; fallible operations
(indexing panics, `unwrap`) return `Option`, with `none` modelling a panic.

The dancing-links solver lives in the external `algox` crate, which is not
part of the sources; where a claim needs it, it is modelled from the
specification (see the definitions whose doc comment starts
`Modelled from the spec:`).
-/

namespace Polyomino

/-- Integer grid point, after `Point` of `polyomino.rs` (`isize` coordinates). -/
structure Point where
  x : Int
  y : Int
deriving DecidableEq, Repr

/-- `impl ops::Add for Point`. -/
def Point.add (p q : Point) : Point := ⟨p.x + q.x, p.y + q.y⟩

/-- `impl ops::Sub for Point`. -/
def Point.sub (p q : Point) : Point := ⟨p.x - q.x, p.y - q.y⟩

/-- `impl ops::Neg for Point`. -/
def Point.neg (p : Point) : Point := ⟨-p.x, -p.y⟩

/-- Componentwise minimum: the body of the accumulation loop of `Tile::offset`. -/
def Point.min2 (a q : Point) : Point := ⟨min a.x q.x, min a.y q.y⟩

/-- A named list of points, after `Tile` of `polyomino.rs`. -/
structure Tile where
  name : String
  points : List Point
deriving DecidableEq, Repr

/-- The character loop of `Tile::from_str`: `'x'` places a cell at the current
(column, row) and advances the column, `'\n'` resets the column and advances
the row, any other character advances the column without placing a cell. -/
def scanAux : List Char → Nat → Nat → List Point
  | [], _, _ => []
  | c :: cs, col, row =>
    if c = 'x' then ⟨(col : Int), (row : Int)⟩ :: scanAux cs (col + 1) row
    else if c = '\n' then scanAux cs 0 (row + 1)
    else scanAux cs (col + 1) row

/-- `Tile::offset`: the componentwise minimum of all points, seeded with
`points[0]`.  `none` models the `self.points[0]` index panic on an empty
point list. -/
def offsetOf : List Point → Option Point
  | [] => none
  | p :: ps => some ((p :: ps).foldl Point.min2 p)

def Tile.offset? (t : Tile) : Option Point := offsetOf t.points

/-- `Tile::translate`: add the offset to every point. -/
def Tile.translate (t : Tile) (o : Point) : Tile :=
  ⟨t.name, t.points.map (fun p => p.add o)⟩

/-- `Tile::mirror`: reflect across the y-axis, `(x, y) ↦ (-x, y)`. -/
def Tile.mirror (t : Tile) : Tile :=
  ⟨t.name, t.points.map (fun p => ⟨-p.x, p.y⟩)⟩

/-- `Tile::rotate`: rotate 90° counter-clockwise, `(x, y) ↦ (y, -x)`. -/
def Tile.rotate (t : Tile) : Tile :=
  ⟨t.name, t.points.map (fun p => ⟨p.y, -p.x⟩)⟩

/-- `Tile::from_str`: scan the text, then translate the tile's top-left corner
to the origin.  `none` models the panic of `offset()` when the text contains
no `'x'` at all. -/
def Tile.from_str? (name contents : String) : Option Tile :=
  let points := scanAux contents.data 0 0
  match offsetOf points with
  | none => none
  | some o => some ((Tile.mk name points).translate o.neg)

/-- `Iterator::position`, used by `Tile::index`. -/
def idxOf? : List Point → Point → Option Nat
  | [], _ => none
  | q :: qs, p => if q = p then some 0 else (idxOf? qs p).map (· + 1)

/-- `Tile::index`: position of a point in the tile's point list. -/
def Tile.index (t : Tile) (p : Point) : Option Nat := idxOf? t.points p

/-- `Tile::size`: bounding-box width and height; `(0, 0)` for an empty tile. -/
def Tile.size (t : Tile) : Nat × Nat :=
  match t.points with
  | [] => (0, 0)
  | p :: ps =>
    let l := p :: ps
    let xmin := l.foldl (fun a q => min a q.x) p.x
    let xmax := l.foldl (fun a q => max a q.x) p.x
    let ymin := l.foldl (fun a q => min a q.y) p.y
    let ymax := l.foldl (fun a q => max a q.y) p.y
    ((xmax - xmin + 1).toNat, (ymax - ymin + 1).toNat)

/-- Insertion step of a stable insertion sort with a boolean `le`. -/
def insertBy {α : Type} (le : α → α → Bool) (a : α) : List α → List α
  | [] => [a]
  | b :: l => if le a b then a :: b :: l else b :: insertBy le a l

/-- Stable insertion sort; models Rust's `sort` (the lists sorted here are
duplicate-free, so any correct sort produces the same list). -/
def sortBy {α : Type} (le : α → α → Bool) : List α → List α
  | [] => []
  | a :: l => insertBy le a (sortBy le l)

/-- The derived `Ord` of `Point` (`x`, then `y`), as a boolean `≤`. -/
def pointLeB (p q : Point) : Bool :=
  decide (p.x < q.x) || (decide (p.x = q.x) && decide (p.y ≤ q.y))

/-- `Vec::sort` on a point list under the derived `Ord` of `Point`. -/
def sortPoints (l : List Point) : List Point := sortBy pointLeB l

/-- The normalization used by `Game::build_matrix` on each variant:
`t.translate(&-t.offset()); t.points.sort()`.  `none` models the `offset`
panic on an empty tile. -/
def Tile.normalize? (t : Tile) : Option Tile :=
  match t.offset? with
  | none => none
  | some o => some ⟨t.name, sortPoints (t.translate o.neg).points⟩

/-- The derived strict `Ord` of `Point` as a boolean `<`. -/
def pointLtB (p q : Point) : Bool :=
  decide (p.x < q.x) || (decide (p.x = q.x) && decide (p.y < q.y))

/-- Lexicographic strict order on point lists (Rust's slice `Ord`). -/
def ptsLtB : List Point → List Point → Bool
  | [], [] => false
  | [], _ :: _ => true
  | _ :: _, [] => false
  | p :: ps, q :: qs => pointLtB p q || (decide (p = q) && ptsLtB ps qs)

/-- Strict order on characters by code point. -/
def charLtB (a b : Char) : Bool := decide (a.toNat < b.toNat)

/-- Lexicographic strict order on character lists.  On UTF-8 strings the
byte-wise order Rust uses for `String` coincides with this code-point order. -/
def strLtB : List Char → List Char → Bool
  | [], [] => false
  | [], _ :: _ => true
  | _ :: _, [] => false
  | a :: as, b :: bs => charLtB a b || (decide (a = b) && strLtB as bs)

/-- Rust's `String` order. -/
def stringLtB (a b : String) : Bool := strLtB a.data b.data

/-- The derived strict `Ord` of `Tile` (name, then point list). -/
def tileLtB (a b : Tile) : Bool :=
  stringLtB a.name b.name || (decide (a.name = b.name) && ptsLtB a.points b.points)

/-- The derived `Ord` of `(Tile, usize)` as a boolean `≤`; this is the key
under which `Game::build_matrix` sorts the deduplicated orientations. -/
def pairLeB (a b : Tile × Nat) : Bool :=
  tileLtB a.1 b.1 || (decide (a.1 = b.1) && decide (a.2 ≤ b.2))

/-- A board plus a list of pieces, after `Game` of `polyomino.rs`. -/
structure Game where
  board : Tile
  tiles : List Tile
deriving DecidableEq, Repr

/-- `Game::len`: the number of board cells `N`. -/
def Game.len (g : Game) : Nat := g.board.points.length

/-- The logical exact-cover matrix of the `algox` crate, as described by the
specification (§4.3): a column count and a flat list of rows, each row a list
of column indices; the row identifier is the position in the list. -/
structure Matrix where
  n_cols : Nat
  rows : List (List Nat)
deriving DecidableEq, Repr

/-- One pass of the variant loop of `Game::build_matrix` at loop counter `o`:
`t.rotate(); if o == 4 { t.mirror(); } t.translate(&-t.offset()); t.points.sort()`. -/
def orbitStep (o : Nat) (t : Tile) : Option Tile :=
  Tile.normalize? (if o = 4 then t.rotate.mirror else t.rotate)

/-- Thread the mutable variant `t` through the loop counters `os`, collecting
the successive normalized variants. -/
def orbitAux : List Nat → Tile → Option (List Tile)
  | [], _ => some []
  | o :: os, t =>
    match orbitStep o t with
    | none => none
    | some t' => (orbitAux os t').map (t' :: ·)

/-- The eight transformed variants of one piece generated by
`Game::build_matrix` (`for o in 0..8`), in generation order. -/
def genVariants (tile : Tile) : Option (List Tile) :=
  orbitAux [0, 1, 2, 3, 4, 5, 6, 7] tile

/-- The multiset of `(variant, piece index)` pairs inserted into the `uniqs`
hash set by `Game::build_matrix`, piece by piece (index from `enumerate`). -/
def buildUniqsAux : Nat → List Tile → Option (List (Tile × Nat))
  | _, [] => some []
  | i, t :: ts =>
    match genVariants t with
    | none => none
    | some vs => (buildUniqsAux (i + 1) ts).map (fun rest => vs.map (fun v => (v, i)) ++ rest)

def buildUniqs (tiles : List Tile) : Option (List (Tile × Nat)) := buildUniqsAux 0 tiles

/-- All anchors `(i, j)` tried by the placement loops of `Game::build_matrix`:
`i` (the x coordinate) is the outer loop over `0..size.width`, `j` (the y
coordinate) the inner loop over `0..size.height`. -/
def ijList (w h : Nat) : List (Nat × Nat) :=
  (List.range w).flatMap (fun i => (List.range h).map (fun j => (i, j)))

/-- Row cell indices: `self.board.index(&point).unwrap()` for each point of the
translated variant, in point order.  `none` models the `unwrap` panic. -/
def cellsOf (bps : List Point) : List Point → Option (List Nat)
  | [] => some []
  | p :: ps =>
    match idxOf? bps p with
    | none => none
    | some k => (cellsOf bps ps).map (k :: ·)

/-- The body of one placement iteration once the variant has been re-anchored
to `t'`: test containment in the board and build the row when it fits;
the result pairs the updated variant with the emitted row, if any. -/
def placeRowAt (board : Tile) (pieceCol : Nat) (t' : Tile) :
    Option (Tile × Option (List Nat)) :=
  if t'.points.all (fun p => decide (p ∈ board.points)) then
    match cellsOf board.points t'.points with
    | none => none
    | some cells => some (t', some (cells ++ [pieceCol]))
  else some (t', none)

/-- One iteration of the placement loops: re-anchor the threaded variant `t` to
`(i, j)` (`t.translate(&(Point::new(i, j) - t.offset()))`), then test and emit. -/
def placeStep (board : Tile) (pieceCol : Nat) (t : Tile) (ij : Nat × Nat) :
    Option (Tile × Option (List Nat)) :=
  match t.offset? with
  | none => none
  | some o => placeRowAt board pieceCol (t.translate ((Point.mk (ij.1 : Int) (ij.2 : Int)).sub o))

/-- The placement loops of `Game::build_matrix` for one orientation, threading
the mutated variant `t` and collecting the emitted rows in order. -/
def placeAux (board : Tile) (pieceCol : Nat) : List (Nat × Nat) → Tile → Option (List (List Nat))
  | [], _ => some []
  | ij :: rest, t =>
    match placeStep board pieceCol t ij with
    | none => none
    | some (t', none) => placeAux board pieceCol rest t'
    | some (t', some row) => (placeAux board pieceCol rest t').map (row :: ·)

/-- The outer loop of `Game::build_matrix` over the sorted unique orientations,
concatenating each orientation's rows. -/
def placeAll (board : Tile) (n : Nat) (sz : Nat × Nat) : List (Tile × Nat) → Option (List (List Nat))
  | [] => some []
  | u :: us =>
    match placeAux board (n + u.2) (ijList sz.1 sz.2) u.1 with
    | none => none
    | some rs => (placeAll board n sz us).map (rs ++ ·)

/-- `Game::build_matrix`, in state-passing form: the `Game` component of the
result is the value of `self` after the call (the method takes `&mut self` but
performs all geometry on clones, so `self` is only read). -/
def Game.build_matrix_st (g : Game) : Option (Game × Matrix) :=
  let n_cols := g.board.points.length + g.tiles.length
  match buildUniqs g.tiles with
  | none => none
  | some uniqs0 =>
    let uniqs := sortBy pairLeB uniqs0.dedup
    match placeAll g.board g.board.points.length g.board.size uniqs with
    | none => none
    | some rows => some (g, ⟨n_cols, rows⟩)

/-- `Game::build_matrix`, result matrix only. -/
def Game.build_matrix (g : Game) : Option Matrix := (g.build_matrix_st).map Prod.snd

/-- Modelled from the spec: the number of active rows containing column `c`
(the column header's `size` counter, §3). -/
def colCount (rows : List (Nat × List Nat)) (c : Nat) : Nat :=
  (rows.filter (fun r => decide (c ∈ r.2))).length

/-- Modelled from the spec: the S-heuristic column choice (§4.4, step 2) —
the column of smallest size, ties broken by smaller column index.  `cols` is
kept in ascending order, so keeping the first strict minimum realizes the
tie-break. -/
def chooseCol (rows : List (Nat × List Nat)) : List Nat → Option Nat
  | [] => none
  | c :: cs =>
    some (cs.foldl (fun best d => if colCount rows d < colCount rows best then d else best) c)

/-- Modelled from the spec: covering the columns of a selected row removes
every active row that intersects it (§4.4, step 4). -/
def coverRows (rows : List (Nat × List Nat)) (r : List Nat) : List (Nat × List Nat) :=
  rows.filter (fun r2 => r2.2.all (fun d => decide (d ∉ r)))

/-- Modelled from the spec: covering the columns of a selected row removes
them from the active column list. -/
def coverCols (cols : List Nat) (r : List Nat) : List Nat :=
  cols.filter (fun d => decide (d ∉ r))

/-- Modelled from the spec: Knuth's Algorithm X with the S-heuristic (§4.4),
over the logical matrix.  The `algox` crate implementing it is not part of the
sources.  `fuel` dominates the recursion depth: every level removes the chosen
column, so `cols.length + 1` suffices. -/
def algoX : Nat → List (Nat × List Nat) → List Nat → List (List Nat)
  | 0, _, _ => []
  | fuel + 1, rows, cols =>
    match chooseCol rows cols with
    | none => [[]]
    | some c =>
      (rows.filter (fun r => decide (c ∈ r.2))).flatMap (fun r =>
        (algoX fuel (coverRows rows r.2) (coverCols cols r.2)).map (fun s => r.1 :: s))

/-- Modelled from the spec: `Matrix::solve`, enumerating all solutions (lists
of row identifiers in selection order). -/
def Matrix.solve (m : Matrix) : List (List Nat) :=
  algoX (m.n_cols + 1) m.rows.enum (List.range m.n_cols)

/-- `Game::solve`: build the matrix, then solve it. -/
def Game.solve (g : Game) : Option (Matrix × List (List Nat)) :=
  (g.build_matrix).map (fun m => (m, m.solve))

/-- The fold of `Game::solution` of `polyomino.rs` over one row's column
indices, accumulating `(points, name)`: board columns push the board point,
other columns read `self.tiles[i].name` — with `i` the raw column index, so
`none` models the out-of-bounds panic when `i ≥ tiles.len()`. -/
def solutionRowAux (g : Game) : List Nat → List Point × String → Option (List Point × String)
  | [], acc => some acc
  | i :: is, acc =>
    if i < g.board.points.length then
      match g.board.points.get? i with
      | none => none
      | some p => solutionRowAux g is (acc.1 ++ [p], acc.2)
    else
      match g.tiles.get? i with
      | none => none
      | some t => solutionRowAux g is (acc.1, t.name)

/-- The loop of `Game::solution` of `polyomino.rs` over the selected rows,
collecting one decoded tile per row. -/
def solutionAux (g : Game) (m : Matrix) : List Nat → Option (List Tile)
  | [] => some []
  | r :: rs =>
    match m.rows.get? r with
    | none => none
    | some indices =>
      match solutionRowAux g indices ([], "") with
      | none => none
      | some pn => (solutionAux g m rs).map (Tile.mk pn.2 pn.1 :: ·)

/-- `Game::solution` of `polyomino.rs`: decode a solution (list of row ids)
into tiles.  `m.rows.get? r` models `m.row(r)`; row storage follows the
specification of the `algox` matrix (§4.3). -/
def Game.solution (g : Game) (m : Matrix) (sol : List Nat) : Option (List Tile) :=
  solutionAux g m sol

/-- Checked `usize` subtraction: `none` models the underflow panic. -/
def subChecked (a b : Nat) : Option Nat := if b ≤ a then some (a - b) else none

/-- Checked vector write `v[i] = x`: `none` models the index panic. -/
def listSet (l : List Nat) (i v : Nat) : Option (List Nat) :=
  if i < l.length then some (l.set i v) else none

/-- The cell-writing loop of `JsGame::solution` of `lib.rs`:
`board[indices[k] - 1] = tile_idx` for every index but the last. -/
def jsDecodeCells (tidx : Nat) : List Nat → List Nat → Option (List Nat)
  | [], b => some b
  | i :: is, b =>
    match subChecked i 1 with
    | none => none
    | some c =>
      match listSet b c tidx with
      | none => none
      | some b2 => jsDecodeCells tidx is b2

/-- The body of `JsGame::solution` of `lib.rs` for one solution row:
`tile_idx = indices.last().unwrap() - 1 - game.len()`, then write `tile_idx`
at `indices[k] - 1` for every index but the last. -/
def jsDecodeRow (n : Nat) (b : List Nat) (indices : List Nat) : Option (List Nat) :=
  match indices.getLast? with
  | none => none
  | some last =>
    match subChecked last 1 with
    | none => none
    | some l1 =>
      match subChecked l1 n with
      | none => none
      | some tidx => jsDecodeCells tidx indices.dropLast b

/-- The loop of `JsGame::solution` over the rows of one stored solution,
threading the output board vector. -/
def jsSolutionAux (n : Nat) (rows : List (List Nat)) : List Nat → List Nat → Option (List Nat)
  | [], b => some b
  | r :: rs, b =>
    match rows.get? r with
    | none => none
    | some indices =>
      match jsDecodeRow n b indices with
      | none => none
      | some b2 => jsSolutionAux n rows rs b2

/-- `JsGame::solution` of `lib.rs`: decode one stored solution into a
board-sized vector of piece indices (`vec![0; game.len()]` initialized).
The row lookup `self.game.row(*r)` is a `Game` method absent from the
sources; following the specification (§4.3) a row id denotes the position in
the flat row list, so it is `rows.get? r`. -/
def jsSolution (g : Game) (rows : List (List Nat)) (sol : List Nat) : Option (List Nat) :=
  jsSolutionAux g.len rows sol (List.replicate g.len 0)

/-- Modelled from the spec: the cell assignment of the decode operation
(§4.4, Decoding) — assign `piece_index` to the row's board cells. -/
def decodeSpecCells (pidx : Nat) : List Nat → List Nat → Option (List Nat)
  | [], b => some b
  | c :: cs, b =>
    match listSet b c pidx with
    | none => none
    | some b2 => decodeSpecCells pidx cs b2

/-- Modelled from the spec: decode one solution row (§4.4, Decoding) — the
last column index is the piece column (at least `N`),
`piece_index = last - N`, and the remaining indices are board cells that
receive `piece_index` in the board-sized output array. -/
def decodeSpecRow (n : Nat) (b : List Nat) (row : List Nat) : Option (List Nat) :=
  match row.getLast? with
  | none => none
  | some last => if n ≤ last then decodeSpecCells (last - n) row.dropLast b else none

/-- Modelled from the spec: the decode loop over a whole solution. -/
def decodeSpecAux (n : Nat) (m : Matrix) : List Nat → List Nat → Option (List Nat)
  | [], b => some b
  | r :: rs, b =>
    match m.rows.get? r with
    | none => none
    | some row =>
      match decodeSpecRow n b row with
      | none => none
      | some b2 => decodeSpecAux n m rs b2

/-- Modelled from the spec: `Game.decode(Matrix, Solution)` — a vector of
length `N` whose entry `k` is the piece index assigned to board cell `k`. -/
def decodeSpec (g : Game) (m : Matrix) (sol : List Nat) : Option (List Nat) :=
  decodeSpecAux g.len m sol (List.replicate g.len 0)

/-- The row emitted (if any) for one orientation shape `base` anchored at
`(i, j)`: translate the shape by `(i, j)`, test containment in the board, and
on success list the board-cell index of every point in point order, followed
by the piece column. -/
def rowAt (board : Tile) (col : Nat) (base : List Point) (i j : Nat) : Option (List Nat) :=
  if (base.map (fun p => p.add ⟨(i : Int), (j : Int)⟩)).all (fun p => decide (p ∈ board.points)) then
    (cellsOf board.points (base.map (fun p => p.add ⟨(i : Int), (j : Int)⟩))).map
      (fun cells => cells ++ [col])
  else none

/-- Lexicographic boolean `≤` on point lists. -/
def ptsLeB (a b : List Point) : Bool := ptsLtB a b || decide (a = b)

/-- Follows claim C1's wording: rows grouped by piece in input order; within a
piece ordered by the orientation's rank in the lexicographic-by-point-list
order; within one orientation the anchor varies with `dy` as the outer loop
and `dx` as the inner loop. -/
def rowsClaimAux (board : Tile) (n : Nat) (sz : Nat × Nat) : Nat → List Tile → Option (List (List Nat))
  | _, [] => some []
  | idx, t :: ts =>
    match genVariants t with
    | none => none
    | some vs =>
      let os := sortBy (fun a b => ptsLeB a.points b.points) vs.dedup
      let block := os.flatMap (fun o =>
        (List.range sz.2).flatMap (fun j =>
          (List.range sz.1).filterMap (fun i => rowAt board (n + idx) o.points i j)))
      (rowsClaimAux board n sz (idx + 1) ts).map (block ++ ·)

def rowsClaimOrder (g : Game) : Option (List (List Nat)) :=
  rowsClaimAux g.board g.board.points.length g.board.size 0 g.tiles

/-- Follows the amended claim C1's wording: rows grouped by unique orientation
in the lexicographic order of the sort key (piece name, normalized point list,
piece index); within one orientation the anchor varies with `dx` as the outer
loop and `dy` as the inner loop. -/
def rowsSpecOrdered (g : Game) : Option (List (List Nat)) :=
  (buildUniqs g.tiles).map (fun u0 =>
    (sortBy pairLeB u0.dedup).flatMap (fun u =>
      (List.range g.board.size.1).flatMap (fun i =>
        (List.range g.board.size.2).filterMap (fun j =>
          rowAt g.board (g.board.points.length + u.2) u.1.points i j))))

/-! Concrete games used by the counterexamples and witnesses. -/

/-- The 2×2 board `"xx\nxx"` (see `claim_c8` for the tie to `from_str`). -/
def tB22 : Tile := ⟨"Board", [⟨0, 0⟩, ⟨1, 0⟩, ⟨0, 1⟩, ⟨1, 1⟩]⟩

/-- The L-tromino `"xx\nx"`. -/
def tT1 : Tile := ⟨"T1", [⟨0, 0⟩, ⟨1, 0⟩, ⟨0, 1⟩]⟩

/-- The monomino `"x"`. -/
def tT2 : Tile := ⟨"T2", [⟨0, 0⟩]⟩

/-- The game of the source test `solve1`: 2×2 board, pieces T1 and T2. -/
def gC8 : Game := ⟨tB22, [tT1, tT2]⟩

/-- The matrix `Game::build_matrix` produces for `gC8`. -/
def mC8 : Matrix :=
  ⟨6, [[0, 2, 1, 4], [0, 2, 3, 4], [0, 1, 3, 4], [2, 1, 3, 4], [0, 5], [2, 5], [1, 5], [3, 5]]⟩

/-- The solutions the modelled solver finds for `mC8`. -/
def solsC8 : List (List Nat) := [[0, 7], [1, 6], [2, 5], [4, 3]]

/-- Two monomino pieces whose names are not in input order: piece 0 is named
`"B"`, piece 1 is named `"A"`. -/
def gTwo : Game := ⟨tB22, [⟨"B", [⟨0, 0⟩]⟩, ⟨"A", [⟨0, 0⟩]⟩]⟩

/-- The L-tetromino `"xxx\nx"` of spec scenario 6. -/
def tLtet : Tile := ⟨"L", [⟨0, 0⟩, ⟨1, 0⟩, ⟨2, 0⟩, ⟨0, 1⟩]⟩

/-- The square tetromino `"xx\nxx"` as a piece. -/
def tSq : Tile := ⟨"O", [⟨0, 0⟩, ⟨1, 0⟩, ⟨0, 1⟩, ⟨1, 1⟩]⟩

/-- A game whose board has zero cells and whose single piece is nonempty. -/
def gEmptyB : Game := ⟨⟨"Board", []⟩, [tT2]⟩

/-- Ascending (weakly sorted) check on a row of column indices. -/
def ascB : List Nat → Bool
  | [] => true
  | [_] => true
  | a :: b :: l => decide (a ≤ b) && ascB (b :: l)

/-- Boolean `≤` on `Nat`, for sorting cell lists. -/
def natLeB (a b : Nat) : Bool := decide (a ≤ b)

/-- The board cells covered by a solution: all column indices `< n` of its
rows, concatenated. -/
def solCells (m : Matrix) (n : Nat) (s : List Nat) : List Nat :=
  s.flatMap (fun r => ((m.rows.get? r).getD []).filter (fun c => decide (c < n)))

/-- Does the solution use the piece of column `pcol` on exactly `k` cells? -/
def usesPiece (m : Matrix) (n : Nat) (s : List Nat) (pcol k : Nat) : Bool :=
  s.any (fun r =>
    let row := (m.rows.get? r).getD []
    decide (pcol ∈ row) && decide ((row.filter (fun c => decide (c < n))).length = k))

/-- The raw (pre-deduplication) orientation pairs generated for `gC8`. -/
def uC8 : List (Tile × Nat) := [
  (⟨"T1", [⟨0, 0⟩, ⟨0, 1⟩, ⟨1, 1⟩]⟩, 0), (⟨"T1", [⟨0, 1⟩, ⟨1, 0⟩, ⟨1, 1⟩]⟩, 0),
  (⟨"T1", [⟨0, 0⟩, ⟨1, 0⟩, ⟨1, 1⟩]⟩, 0), (⟨"T1", [⟨0, 0⟩, ⟨0, 1⟩, ⟨1, 0⟩]⟩, 0),
  (⟨"T1", [⟨0, 1⟩, ⟨1, 0⟩, ⟨1, 1⟩]⟩, 0), (⟨"T1", [⟨0, 0⟩, ⟨1, 0⟩, ⟨1, 1⟩]⟩, 0),
  (⟨"T1", [⟨0, 0⟩, ⟨0, 1⟩, ⟨1, 0⟩]⟩, 0), (⟨"T1", [⟨0, 0⟩, ⟨0, 1⟩, ⟨1, 1⟩]⟩, 0),
  (⟨"T2", [⟨0, 0⟩]⟩, 1), (⟨"T2", [⟨0, 0⟩]⟩, 1), (⟨"T2", [⟨0, 0⟩]⟩, 1), (⟨"T2", [⟨0, 0⟩]⟩, 1),
  (⟨"T2", [⟨0, 0⟩]⟩, 1), (⟨"T2", [⟨0, 0⟩]⟩, 1), (⟨"T2", [⟨0, 0⟩]⟩, 1), (⟨"T2", [⟨0, 0⟩]⟩, 1)]

/-- The deduplicated, sorted orientation pairs of `gC8`. -/
def uC8s : List (Tile × Nat) := [
  (⟨"T1", [⟨0, 0⟩, ⟨0, 1⟩, ⟨1, 0⟩]⟩, 0), (⟨"T1", [⟨0, 0⟩, ⟨0, 1⟩, ⟨1, 1⟩]⟩, 0),
  (⟨"T1", [⟨0, 0⟩, ⟨1, 0⟩, ⟨1, 1⟩]⟩, 0), (⟨"T1", [⟨0, 1⟩, ⟨1, 0⟩, ⟨1, 1⟩]⟩, 0),
  (⟨"T2", [⟨0, 0⟩]⟩, 1)]

/-- The matrix `Game::build_matrix` produces for `gTwo`. -/
def mTwo : Matrix :=
  ⟨6, [[0, 5], [2, 5], [1, 5], [3, 5], [0, 4], [2, 4], [1, 4], [3, 4]]⟩

end Polyomino

namespace Polyomino

/-! Evaluation lemmas on the concrete games, shared by the claim theorems. -/

theorem eval_buildUniqs_C8 : buildUniqs [tT1, tT2] = some uC8 := by
  simp [buildUniqs, buildUniqsAux, genVariants, orbitAux, orbitStep,
    Tile.normalize?, Tile.offset?, offsetOf, Point.min2, Point.neg, Point.add,
    Tile.rotate, Tile.mirror, Tile.translate, sortPoints, sortBy, insertBy, pointLeB,
    tT1, tT2, uC8]

theorem eval_sortU_C8 : sortBy pairLeB uC8.dedup = uC8s := by
  simp [uC8, uC8s, List.dedup_cons_of_mem, List.dedup_cons_of_not_mem,
    sortBy, insertBy, pairLeB, tileLtB, stringLtB, strLtB, charLtB, ptsLtB, pointLtB]

theorem eval_size_tB22 : tB22.size = (2, 2) := by
  simp [Tile.size, tB22, Point.min2]

theorem eval_placeAll_C8 : placeAll tB22 4 (2, 2) uC8s = some mC8.rows := by
  simp [uC8s, tB22, mC8, placeAll, placeAux, placeStep, placeRowAt, ijList, List.range_succ,
    Tile.offset?, offsetOf, Point.min2, Point.sub, Point.add, Tile.translate,
    cellsOf, idxOf?]

theorem eval_build_st_C8 : Game.build_matrix_st gC8 = some (gC8, mC8) := by
  have hu : gC8.tiles = [tT1, tT2] := rfl
  have hb : gC8.board = tB22 := rfl
  simp only [Game.build_matrix_st, hu, hb, eval_buildUniqs_C8, eval_sortU_C8,
    eval_size_tB22, eval_placeAll_C8]
  rfl

theorem eval_build_C8 : Game.build_matrix gC8 = some mC8 := by
  simp [Game.build_matrix, eval_build_st_C8]

theorem eval_solve_mC8 : Matrix.solve mC8 = solsC8 := by
  simp [Matrix.solve, mC8, solsC8, List.enum, List.enumFrom, List.range_succ,
    algoX, chooseCol, colCount, coverRows, coverCols, List.filter_cons]

theorem eval_build_gTwo : Game.build_matrix gTwo = some mTwo := by
  simp [Game.build_matrix, Game.build_matrix_st, gTwo, tB22, mTwo,
    buildUniqs, buildUniqsAux, genVariants, orbitAux, orbitStep,
    Tile.normalize?, Tile.offset?, offsetOf, Point.min2, Point.neg, Point.add, Point.sub,
    Tile.rotate, Tile.mirror, Tile.translate, sortPoints, sortBy, insertBy, pointLeB,
    List.dedup_cons_of_mem, List.dedup_cons_of_not_mem, pairLeB, tileLtB, stringLtB, strLtB,
    charLtB, ptsLtB, pointLtB, Tile.size, placeAll, placeAux, placeStep, placeRowAt, ijList,
    List.range_succ, cellsOf, idxOf?]

theorem eval_claimOrder_gTwo :
    rowsClaimOrder gTwo = some [[0, 4], [1, 4], [2, 4], [3, 4], [0, 5], [1, 5], [2, 5], [3, 5]] := by
  simp [rowsClaimOrder, rowsClaimAux, gTwo, tB22,
    genVariants, orbitAux, orbitStep,
    Tile.normalize?, Tile.offset?, offsetOf, Point.min2, Point.neg, Point.add, Point.sub,
    Tile.rotate, Tile.mirror, Tile.translate, sortPoints, sortBy, insertBy, pointLeB,
    List.dedup_cons_of_mem, List.dedup_cons_of_not_mem, ptsLeB, ptsLtB, pointLtB,
    Tile.size, rowAt, ijList, List.range_succ, cellsOf, idxOf?]

theorem eval_dedupLen_L :
    (buildUniqs [tLtet]).map (fun u0 => u0.dedup.length) = some 8 := by
  simp [buildUniqs, buildUniqsAux, genVariants, orbitAux, orbitStep,
    Tile.normalize?, Tile.offset?, offsetOf, Point.min2, Point.neg, Point.add,
    Tile.rotate, Tile.mirror, Tile.translate, sortPoints, sortBy, insertBy, pointLeB,
    tLtet, List.dedup_cons_of_mem, List.dedup_cons_of_not_mem]

theorem eval_dedupLen_Sq :
    (buildUniqs [tSq]).map (fun u0 => u0.dedup.length) = some 1 := by
  simp [buildUniqs, buildUniqsAux, genVariants, orbitAux, orbitStep,
    Tile.normalize?, Tile.offset?, offsetOf, Point.min2, Point.neg, Point.add,
    Tile.rotate, Tile.mirror, Tile.translate, sortPoints, sortBy, insertBy, pointLeB,
    tSq, List.dedup_cons_of_mem, List.dedup_cons_of_not_mem]

/-- Claim C1, counterexample: on the 2×2 board with two monomino pieces named
`"B"` (index 0) and `"A"` (index 1), the rows `build_matrix` emits are not in
the order claimed — (piece in input order, orientation rank, dy outer, dx
inner) — because the unique orientations are sorted by the derived order of
`(Tile, usize)` (piece name first) and the anchor loops run dx outer, dy
inner. -/
theorem claim_c1_counterexample :
    (Game.build_matrix gTwo).map Matrix.rows ≠ rowsClaimOrder gTwo := by
  rw [eval_build_gTwo, eval_claimOrder_gTwo]
  decide

/-- Claim C2, evaluation at the failing input: decoding the solution
`[0, 7]` of the 2×2 game, `JsGame::solution` panics (`none`): on row 0
(`[0, 2, 1, 4]`, piece T1 = piece 0) it computes
`tile_idx = 4 - 1 - 4`, which underflows `usize`.  The decode operation as
the spec states it returns the correct board colouring `[0, 0, 0, 1]`. -/
theorem claim_c2_eval :
    jsSolution gC8 mC8.rows [0, 7] = none ∧
    decodeSpec gC8 mC8 [0, 7] = some [0, 0, 0, 1] := by
  constructor
  · simp [jsSolution, jsSolutionAux, jsDecodeRow, jsDecodeCells, subChecked, listSet,
      Game.len, gC8, tB22, mC8, List.replicate, List.dropLast]
  · simp [decodeSpec, decodeSpecAux, decodeSpecRow, decodeSpecCells, listSet,
      Game.len, gC8, tB22, mC8, List.replicate, List.dropLast]

/-- Claim C3, counterexample: not every matrix row is an ascending list of
column indices — for the 2×2 game the first emitted row is `[0, 2, 1, 4]`:
the cells follow the orientation's (x, y)-sorted points, and the board indexes
cells row-major, so the cell prefix is not sorted. -/
theorem claim_c3_counterexample :
    (Game.build_matrix gC8).map (fun m => m.rows.all ascB) = some false := by
  rw [eval_build_C8]
  simp [mC8, ascB]

/-- Claim C6, counterexample: the piece `"xxx\nx"` (an L-tetromino, which is
chiral) does not yield 4 distinct orientations. -/
theorem claim_c6_counterexample :
    (buildUniqs [tLtet]).map (fun u0 => u0.dedup.length) ≠ some 4 := by
  rw [eval_dedupLen_L]
  decide

/-- Claim C6 (amended): `build_matrix` generates eight transformed variants
per piece, normalizes each, and deduplicates them by the pair (normalized
point list, piece index); the piece `"xxx\nx"` yields exactly 8 distinct
orientations out of the 8 generated transforms (its mirror image is not a
rotation of it), while a symmetric piece yields fewer — the square
`"xx\nxx"` yields exactly 1. -/
theorem claim_c6_amended :
    Tile.from_str? "L" "xxx\nx" = some tLtet ∧
    (buildUniqs [tLtet]).map (fun u0 => u0.dedup.length) = some 8 ∧
    Tile.from_str? "O" "xx\nxx" = some tSq ∧
    (buildUniqs [tSq]).map (fun u0 => u0.dedup.length) = some 1 :=
  ⟨by decide, eval_dedupLen_L, by decide, eval_dedupLen_Sq⟩

/-- Claim C8 (confirmed): for the 2×2 board built from `"xx\nxx"` with pieces
T1 built from `"xx\nx"` and T2 built from `"x"`, solving yields exactly 4
solutions, and each solution covers all 4 board cells, using T1 for 3 cells
and T2 for 1 cell.  The solver is modelled from the spec (§4.4); the count
and the coverage facts do not depend on the solver's search order, only on
the set of exact covers. -/
theorem claim_c8 :
    Tile.from_str? "Board" "xx\nxx" = some tB22 ∧
    Tile.from_str? "T1" "xx\nx" = some tT1 ∧
    Tile.from_str? "T2" "x" = some tT2 ∧
    Game.solve gC8 = some (mC8, solsC8) ∧
    solsC8.length = 4 ∧
    solsC8.all (fun s =>
      decide (sortBy natLeB (solCells mC8 4 s) = [0, 1, 2, 3]) &&
      usesPiece mC8 4 s 4 3 && usesPiece mC8 4 s 5 1) = true := by
  refine ⟨by decide, by decide, by decide, ?_, by decide, ?_⟩
  · rw [Game.solve, eval_build_C8]
    simp [eval_solve_mC8]
  · simp [solsC8, solCells, usesPiece, mC8, sortBy, insertBy, natLeB, List.filter_cons]

/-! General lemmas about the geometry layer. -/

theorem rotate_four (t : Tile) : t.rotate.rotate.rotate.rotate = t := by
  cases t with
  | mk n ps =>
    simp only [Tile.rotate, List.map_map, Tile.mk.injEq, true_and]
    induction ps with
    | nil => rfl
    | cons p l ih => simp [Function.comp, ih]

theorem mirror_mirror (t : Tile) : t.mirror.mirror = t := by
  cases t with
  | mk n ps =>
    simp only [Tile.mirror, List.map_map, Tile.mk.injEq, true_and]
    induction ps with
    | nil => rfl
    | cons p l ih => simp [Function.comp, ih]

/-- Claim C7 (confirmed): four rotations, and two mirrorings, act as the
identity up to normalization — in fact they restore the tile exactly, so the
normalized tiles agree as well. -/
theorem claim_c7 (t : Tile) :
    Tile.normalize? (t.rotate.rotate.rotate.rotate) = t.normalize? ∧
    Tile.normalize? (t.mirror.mirror) = t.normalize? := by
  rw [rotate_four, mirror_mirror]
  exact ⟨rfl, rfl⟩

/-- Witness for C7 at the concrete L-tromino piece. -/
theorem claim_c7_witness :
    Tile.normalize? (tT1.rotate.rotate.rotate.rotate) = tT1.normalize? ∧
    Tile.normalize? (tT1.mirror.mirror) = tT1.normalize? :=
  claim_c7 tT1

/-- Claim C10 (confirmed): `build_matrix` leaves the game it is called on
unchanged — the state-passing embedding returns the same board and tile list
it was given, since the method only reads `self` and performs all geometry on
clones. -/
theorem claim_c10 (g : Game) (p : Game × Matrix) (h : Game.build_matrix_st g = some p) :
    p.1.board = g.board ∧ p.1.tiles = g.tiles := by
  unfold Game.build_matrix_st at h
  cases hu : buildUniqs g.tiles with
  | none => simp only [hu] at h; exact absurd h (by simp)
  | some u0 =>
    simp only [hu] at h
    cases hp : placeAll g.board g.board.points.length g.board.size (sortBy pairLeB u0.dedup) with
    | none => simp only [hp] at h; exact absurd h (by simp)
    | some rows =>
      simp only [hp, Option.some.injEq] at h
      rw [← h]
      exact ⟨rfl, rfl⟩

/-- Witness for C10 at the concrete 2×2 game. -/
theorem claim_c10_witness : (gC8, mC8).1.board = gC8.board ∧ (gC8, mC8).1.tiles = gC8.tiles :=
  claim_c10 gC8 (gC8, mC8) eval_build_st_C8

/-- If a row contains a column index `i` that is neither a valid board index
nor a valid tile index, decoding that row panics (`self.tiles[i]` is out of
bounds). -/
theorem solutionRowAux_none (g : Game) (i : Nat)
    (hN : g.board.points.length ≤ i) (hP : g.tiles.length ≤ i) :
    ∀ indices acc, i ∈ indices → solutionRowAux g indices acc = none := by
  intro indices
  induction indices with
  | nil => intro acc h; exact absurd h (List.not_mem_nil i)
  | cons j js ih =>
    intro acc hmem
    unfold solutionRowAux
    by_cases hj : j < g.board.points.length
    · rw [if_pos hj]
      cases hbg : g.board.points.get? j with
      | none => exact absurd (List.get?_eq_none.1 hbg) (by omega)
      | some p =>
        simp only [hbg]
        apply ih
        rcases List.mem_cons.1 hmem with h | h
        · omega
        · exact h
    · rw [if_neg hj]
      cases htg : g.tiles.get? j with
      | none => simp only [htg]
      | some t =>
        have hjP : j < g.tiles.length := (List.get?_eq_some.1 htg).1
        simp only [htg]
        apply ih
        rcases List.mem_cons.1 hmem with h | h
        · omega
        · exact h

/-- Propagation: one panicking row makes the whole decode panic. -/
theorem solutionAux_none (g : Game) (m : Matrix) (r i : Nat) (row : List Nat)
    (hrow : m.rows.get? r = some row) (hi : i ∈ row)
    (hN : g.board.points.length ≤ i) (hP : g.tiles.length ≤ i) :
    ∀ sol, r ∈ sol → solutionAux g m sol = none := by
  intro sol
  induction sol with
  | nil => intro h; exact absurd h (List.not_mem_nil r)
  | cons r2 rs ih =>
    intro hmem
    unfold solutionAux
    rcases List.mem_cons.1 hmem with h | h
    · rw [← h]
      simp only [hrow, solutionRowAux_none g i hN hP row ([], "") hi]
    · cases h2 : m.rows.get? r2 with
      | none => simp only [h2]
      | some ind =>
        simp only [h2]
        cases h3 : solutionRowAux g ind ([], "") with
        | none => simp only [h3]
        | some pn => simp only [h3, ih h, Option.map_none']

/-- Claim C9 (confirmed): whenever a selected row carries the piece column
`i = N + piece_index` with `i` at least the number of tiles — in particular
for every game with at least as many board cells as pieces, so for every
exactly-tileable non-empty board — `Game::solution` panics: the raw column
index is used to index `self.tiles` (instead of `i - N`), out of bounds. -/
theorem claim_c9 (g : Game) (m : Matrix) (sol : List Nat) (r i : Nat) (row : List Nat)
    (hr : r ∈ sol) (hrow : m.rows.get? r = some row) (hi : i ∈ row)
    (hN : g.board.points.length ≤ i) (hP : g.tiles.length ≤ i) :
    Game.solution g m sol = none :=
  solutionAux_none g m r i row hrow hi hN hP sol hr

/-- Witness for C9: decoding the first solution of the 2×2 game panics on its
first row `[0, 2, 1, 4]`, whose piece column 4 = N + 0 exceeds the two-tile
list. -/
theorem claim_c9_witness : Game.solution gC8 mC8 [0, 7] = none :=
  claim_c9 gC8 mC8 [0, 7] 0 4 [0, 2, 1, 4] (by decide) (by decide) (by decide)
    (by decide) (by decide)

/-- A text without `'x'` scans to no points at all. -/
theorem scanAux_no_x : ∀ (cs : List Char) (col row : Nat), 'x' ∉ cs →
    scanAux cs col row = [] := by
  intro cs
  induction cs with
  | nil => intro col row h; rfl
  | cons c cs ih =>
    intro col row h
    unfold scanAux
    have hc : ¬ c = 'x' := fun hx => h (hx ▸ List.mem_cons_self c cs)
    rw [if_neg hc]
    by_cases hn : c = '\n'
    · rw [if_pos hn]; exact ih 0 (row + 1) (fun hm => h (List.mem_cons_of_mem c hm))
    · rw [if_neg hn]; exact ih (col + 1) row (fun hm => h (List.mem_cons_of_mem c hm))

theorem length_insertBy {α : Type} (le : α → α → Bool) (a : α) :
    ∀ l : List α, (insertBy le a l).length = l.length + 1 := by
  intro l
  induction l with
  | nil => rfl
  | cons b l ih =>
    unfold insertBy
    cases hb : le a b <;> simp [hb, ih]

theorem length_sortBy {α : Type} (le : α → α → Bool) :
    ∀ l : List α, (sortBy le l).length = l.length := by
  intro l
  induction l with
  | nil => rfl
  | cons a l ih => unfold sortBy; rw [length_insertBy, ih]; rfl

/-- Normalization succeeds on a nonempty tile and keeps it nonempty. -/
theorem normalize?_of_ne_nil (t : Tile) (h : t.points ≠ []) :
    ∃ t2, Tile.normalize? t = some t2 ∧ t2.points ≠ [] := by
  obtain ⟨o, ho⟩ : ∃ o, Tile.offset? t = some o := by
    unfold Tile.offset?
    cases hp : t.points with
    | nil => exact absurd hp h
    | cons p ps => exact ⟨_, rfl⟩
  refine ⟨⟨t.name, sortPoints (t.translate o.neg).points⟩, ?_, ?_⟩
  · unfold Tile.normalize?
    simp only [ho]
  · show sortPoints (t.translate o.neg).points ≠ []
    have hl : (sortPoints (t.translate o.neg).points).length = t.points.length := by
      rw [sortPoints, length_sortBy]
      exact List.length_map t.points _
    intro hnil
    rw [hnil] at hl
    exact h (List.length_eq_zero.1 hl.symm)

/-- The eight-step variant loop succeeds for a nonempty piece. -/
theorem orbitAux_some : ∀ (os : List Nat) (t : Tile), t.points ≠ [] →
    ∃ vs, orbitAux os t = some vs := by
  intro os
  induction os with
  | nil => intro t h; exact ⟨[], rfl⟩
  | cons o os ih =>
    intro t h
    have h1 : (if o = 4 then t.rotate.mirror else t.rotate).points ≠ [] := by
      by_cases ho : o = 4 <;> simp [ho, Tile.rotate, Tile.mirror, h]
    obtain ⟨t2, ht2, hne⟩ := normalize?_of_ne_nil _ h1
    obtain ⟨vs, hvs⟩ := ih t2 hne
    refine ⟨t2 :: vs, ?_⟩
    unfold orbitAux orbitStep
    simp only [ht2, hvs, Option.map_some']

/-- The per-piece variant generation succeeds when every piece is nonempty. -/
theorem buildUniqsAux_some : ∀ (ts : List Tile) (i : Nat), (∀ t ∈ ts, t.points ≠ []) →
    ∃ us, buildUniqsAux i ts = some us := by
  intro ts
  induction ts with
  | nil => intro i h; exact ⟨[], rfl⟩
  | cons t ts ih =>
    intro i h
    obtain ⟨vs, hvs⟩ := orbitAux_some [0, 1, 2, 3, 4, 5, 6, 7] t (h t (List.mem_cons_self t ts))
    obtain ⟨us, hus⟩ := ih (i + 1) (fun t2 ht2 => h t2 (List.mem_cons_of_mem t ht2))
    refine ⟨vs.map (fun v => (v, i)) ++ us, ?_⟩
    unfold buildUniqsAux genVariants
    simp only [hvs, hus, Option.map_some']

/-- An empty tile has a (0, 0) bounding box. -/
theorem size_of_nil (t : Tile) (h : t.points = []) : t.size = (0, 0) := by
  unfold Tile.size
  rw [h]

/-- With a (0, 0)-sized board the placement loops never run: no rows. -/
theorem placeAll_zero (board : Tile) (n : Nat) :
    ∀ us, placeAll board n (0, 0) us = some [] := by
  intro us
  induction us with
  | nil => rfl
  | cons u us ih =>
    unfold placeAll
    simp only [ih, Option.map_some']
    rfl

/-- Modelled solver: a matrix with no rows but at least one column has no
solutions. -/
theorem algoX_no_rows (fuel : Nat) : ∀ cols : List Nat, cols ≠ [] →
    algoX (fuel + 1) [] cols = [] := by
  intro cols h
  cases cols with
  | nil => exact absurd rfl h
  | cons c cs => rfl

/-- Claim C4, counterexample: constructing a `Tile` from ASCII text that
contains no `'x'` does fail in the geometry layer — `from_str` calls
`offset()`, which indexes `points[0]` of the empty point list and panics
(modelled by `none`). -/
theorem claim_c4_counterexample : Tile.from_str? "Q" "---" = none := by decide

/-- Claim C4 (amended): `Tile::from_str` on text with no `'x'` panics in the
geometry layer (the `offset()` call indexes an empty vector); for a game
whose board has zero cells (and whose pieces are nonempty, so that the
orientation loop itself does not panic), `build_matrix` produces a matrix
with zero rows, and when there is at least one piece the solver reports no
solutions. -/
theorem claim_c4_amended :
    (∀ name s : String, 'x' ∉ s.data → Tile.from_str? name s = none) ∧
    (∀ g : Game, g.board.points = [] → (∀ t ∈ g.tiles, t.points ≠ []) → g.tiles ≠ [] →
      ∃ m, Game.build_matrix g = some m ∧ m.rows = [] ∧ m.solve = []) := by
  constructor
  · intro name s h
    unfold Tile.from_str?
    rw [scanAux_no_x s.data 0 0 h]
    rfl
  · intro g hb ht hne
    obtain ⟨us, hus⟩ := buildUniqsAux_some g.tiles 0 ht
    refine ⟨⟨g.board.points.length + g.tiles.length, []⟩, ?_, rfl, ?_⟩
    · unfold Game.build_matrix Game.build_matrix_st buildUniqs
      simp only [hus]
      rw [size_of_nil g.board hb, placeAll_zero]
      rfl
    · show algoX _ List.nil.enum _ = []
      rw [List.enum_nil]
      apply algoX_no_rows
      intro heq
      have h0 : g.board.points.length + g.tiles.length = 0 := List.range_eq_nil.1 heq
      have h1 : g.tiles = [] := List.length_eq_zero.1 (by omega)
      exact hne h1

/-- Witness for C4 at concrete inputs: a no-`'x'` text and the zero-cell
board game with one monomino piece. -/
theorem claim_c4_witness :
    Tile.from_str? "P" "abc" = none ∧
    ∃ m, Game.build_matrix gEmptyB = some m ∧ m.rows = [] ∧ Matrix.solve m = [] :=
  ⟨claim_c4_amended.1 "P" "abc" (by decide),
   claim_c4_amended.2 gEmptyB rfl (by decide) (by decide)⟩

/-- The min-fold of `Tile::offset` is a lower bound of the seed and of every
list element, componentwise. -/
theorem foldl_min2_le : ∀ (l : List Point) (a : Point),
    (l.foldl Point.min2 a).x ≤ a.x ∧ (l.foldl Point.min2 a).y ≤ a.y ∧
    ∀ p ∈ l, (l.foldl Point.min2 a).x ≤ p.x ∧ (l.foldl Point.min2 a).y ≤ p.y := by
  intro l
  induction l with
  | nil => intro a; exact ⟨le_refl _, le_refl _, fun p hp => absurd hp (List.not_mem_nil p)⟩
  | cons q l ih =>
    intro a
    rw [List.foldl_cons]
    obtain ⟨hx, hy, hall⟩ := ih (Point.min2 a q)
    refine ⟨le_trans hx (min_le_left _ _), le_trans hy (min_le_left _ _), ?_⟩
    intro p hp
    rcases List.mem_cons.1 hp with h | h
    · rw [h]; exact ⟨le_trans hx (min_le_right _ _), le_trans hy (min_le_right _ _)⟩
    · exact hall p h

/-- The x component of the min-fold is attained at the seed or in the list. -/
theorem foldl_min2_attained_x : ∀ (l : List Point) (a : Point),
    (l.foldl Point.min2 a).x = a.x ∨ ∃ p ∈ l, (l.foldl Point.min2 a).x = p.x := by
  intro l
  induction l with
  | nil => intro a; exact Or.inl rfl
  | cons q l ih =>
    intro a
    rw [List.foldl_cons]
    rcases ih (Point.min2 a q) with h | ⟨p, hp, he⟩
    · rcases min_choice a.x q.x with hm | hm
      · exact Or.inl (h.trans hm)
      · exact Or.inr ⟨q, List.mem_cons_self q l, h.trans hm⟩
    · exact Or.inr ⟨p, List.mem_cons_of_mem q hp, he⟩

/-- The y component of the min-fold is attained at the seed or in the list. -/
theorem foldl_min2_attained_y : ∀ (l : List Point) (a : Point),
    (l.foldl Point.min2 a).y = a.y ∨ ∃ p ∈ l, (l.foldl Point.min2 a).y = p.y := by
  intro l
  induction l with
  | nil => intro a; exact Or.inl rfl
  | cons q l ih =>
    intro a
    rw [List.foldl_cons]
    rcases ih (Point.min2 a q) with h | ⟨p, hp, he⟩
    · rcases min_choice a.y q.y with hm | hm
      · exact Or.inl (h.trans hm)
      · exact Or.inr ⟨q, List.mem_cons_self q l, h.trans hm⟩
    · exact Or.inr ⟨p, List.mem_cons_of_mem q hp, he⟩

/-- `Tile::offset` computes a componentwise lower bound of all points. -/
theorem offsetOf_le (l : List Point) (o : Point) (h : offsetOf l = some o) :
    ∀ p ∈ l, o.x ≤ p.x ∧ o.y ≤ p.y := by
  cases l with
  | nil => cases h
  | cons q ps =>
    unfold offsetOf at h
    injection h with h
    rw [← h]
    exact (foldl_min2_le (q :: ps) q).2.2

/-- Each component of `Tile::offset` is attained by some point. -/
theorem offsetOf_attained (l : List Point) (o : Point) (h : offsetOf l = some o) :
    (∃ p ∈ l, p.x = o.x) ∧ ∃ p ∈ l, p.y = o.y := by
  cases l with
  | nil => cases h
  | cons q ps =>
    unfold offsetOf at h
    injection h with h
    rw [← h]
    constructor
    · rcases foldl_min2_attained_x (q :: ps) q with hx | ⟨p, hp, he⟩
      · exact ⟨q, List.mem_cons_self q ps, hx.symm⟩
      · exact ⟨p, hp, he.symm⟩
    · rcases foldl_min2_attained_y (q :: ps) q with hy | ⟨p, hp, he⟩
      · exact ⟨q, List.mem_cons_self q ps, hy.symm⟩
      · exact ⟨p, hp, he.symm⟩

theorem min2_add_add (a q d : Point) : Point.min2 (a.add d) (q.add d) = (Point.min2 a q).add d := by
  unfold Point.min2 Point.add
  simp [min_add_add_right]

/-- The min-fold commutes with a uniform translation. -/
theorem foldl_min2_map_add : ∀ (l : List Point) (a d : Point),
    (l.map (fun p => p.add d)).foldl Point.min2 (a.add d) = (l.foldl Point.min2 a).add d := by
  intro l
  induction l with
  | nil => intro a d; rfl
  | cons q l ih =>
    intro a d
    rw [List.map_cons, List.foldl_cons, List.foldl_cons, min2_add_add]
    exact ih (Point.min2 a q) d

/-- `Tile::offset` commutes with a uniform translation. -/
theorem offsetOf_map_add (l : List Point) (d : Point) :
    offsetOf (l.map (fun p => p.add d)) = (offsetOf l).map (fun o => o.add d) := by
  cases l with
  | nil => rfl
  | cons q ps =>
    unfold offsetOf
    simp only [List.map_cons, Option.map_some']
    rw [show (q.add d :: ps.map (fun p => p.add d)) = (q :: ps).map (fun p => p.add d) from rfl]
    rw [foldl_min2_map_add (q :: ps) q d]

/-- Claim C5 (confirmed): `from_str` scans the text with the character
semantics of `scanAux` (the direct transcription of its loop) and then
translates so that the minimum x and the minimum y are both 0: the resulting
tile carries the given name, its points are the scanned points translated by
the negated offset, its own offset is `(0, 0)`, all coordinates are
nonnegative, and both minima 0 are attained. -/
theorem claim_c5 (name s : String) (t : Tile) (h : Tile.from_str? name s = some t) :
    t.name = name ∧
    (∃ o, offsetOf (scanAux s.data 0 0) = some o ∧
      t.points = (scanAux s.data 0 0).map (fun p => p.add o.neg)) ∧
    t.offset? = some ⟨0, 0⟩ ∧
    (∀ p ∈ t.points, 0 ≤ p.x ∧ 0 ≤ p.y) ∧
    (∃ p ∈ t.points, p.x = 0) ∧ (∃ p ∈ t.points, p.y = 0) := by
  simp only [Tile.from_str?] at h
  cases ho : offsetOf (scanAux s.data 0 0) with
  | none =>
    rw [ho] at h
    exact Option.noConfusion h
  | some o =>
    simp only [ho, Option.some.injEq] at h
    rw [← h]
    refine ⟨rfl, ⟨o, rfl, rfl⟩, ?_, ?_, ?_, ?_⟩
    · show offsetOf ((scanAux s.data 0 0).map (fun p => p.add o.neg)) = some ⟨0, 0⟩
      rw [offsetOf_map_add, ho]
      simp only [Option.map_some', Option.some.injEq]
      unfold Point.add Point.neg
      simp
    · intro p hp
      obtain ⟨q, hq, rfl⟩ := List.mem_map.1 hp
      obtain ⟨h1, h2⟩ := offsetOf_le _ o ho q hq
      constructor
      · show 0 ≤ q.x + -o.x
        omega
      · show 0 ≤ q.y + -o.y
        omega
    · obtain ⟨⟨q, hq, he⟩, _⟩ := offsetOf_attained _ o ho
      refine ⟨q.add o.neg, List.mem_map_of_mem _ hq, ?_⟩
      show q.x + -o.x = 0
      omega
    · obtain ⟨_, q, hq, he⟩ := offsetOf_attained _ o ho
      refine ⟨q.add o.neg, List.mem_map_of_mem _ hq, ?_⟩
      show q.y + -o.y = 0
      omega

/-- Witness for C5 at the concrete piece text `"xx\nx"`. -/
theorem claim_c5_witness :
    (Tile.mk "X" [⟨0, 0⟩, ⟨1, 0⟩, ⟨0, 1⟩]).name = "X" ∧
    (∃ o, offsetOf (scanAux "xx\nx".data 0 0) = some o ∧
      (Tile.mk "X" [⟨0, 0⟩, ⟨1, 0⟩, ⟨0, 1⟩]).points =
        (scanAux "xx\nx".data 0 0).map (fun p => p.add o.neg)) ∧
    (Tile.mk "X" [⟨0, 0⟩, ⟨1, 0⟩, ⟨0, 1⟩]).offset? = some ⟨0, 0⟩ ∧
    (∀ p ∈ (Tile.mk "X" [⟨0, 0⟩, ⟨1, 0⟩, ⟨0, 1⟩]).points, 0 ≤ p.x ∧ 0 ≤ p.y) ∧
    (∃ p ∈ (Tile.mk "X" [⟨0, 0⟩, ⟨1, 0⟩, ⟨0, 1⟩]).points, p.x = 0) ∧
    (∃ p ∈ (Tile.mk "X" [⟨0, 0⟩, ⟨1, 0⟩, ⟨0, 1⟩]).points, p.y = 0) :=
  claim_c5 "X" "xx\nx" _ (by decide)

theorem idxOf?_lt_length : ∀ (l : List Point) (p : Point) (k : Nat),
    idxOf? l p = some k → k < l.length := by
  intro l
  induction l with
  | nil => intro p k h; cases h
  | cons q qs ih =>
    intro p k h
    unfold idxOf? at h
    by_cases hq : q = p
    · rw [if_pos hq] at h
      injection h with h
      rw [← h]
      simp
    · rw [if_neg hq] at h
      cases hk : idxOf? qs p with
      | none => rw [hk] at h; cases h
      | some k2 =>
        rw [hk] at h
        injection h with h
        have := ih p k2 hk
        rw [← h]
        simp only [List.length_cons]
        omega

theorem cellsOf_lt_length (bps : List Point) : ∀ (pts : List Point) (cs : List Nat),
    cellsOf bps pts = some cs → ∀ c ∈ cs, c < bps.length := by
  intro pts
  induction pts with
  | nil =>
    intro cs h c hc
    injection h with h
    rw [← h] at hc
    exact absurd hc (List.not_mem_nil c)
  | cons p ps ih =>
    intro cs h c hc
    unfold cellsOf at h
    cases hk : idxOf? bps p with
    | none => rw [hk] at h; cases h
    | some k =>
      rw [hk] at h
      cases hrest : cellsOf bps ps with
      | none => rw [hrest] at h; cases h
      | some cs2 =>
        rw [hrest] at h
        injection h with h
        rw [← h] at hc
        rcases List.mem_cons.1 hc with h2 | h2
        · rw [h2]; exact idxOf?_lt_length bps p k hk
        · exact ih cs2 hrest c h2

/-- A row emitted by one placement step is its cell list (all valid board
indices) followed by the piece column. -/
theorem placeStep_row (board : Tile) (col : Nat) (t : Tile) (ij : Nat × Nat)
    (t2 : Tile) (row : List Nat) (h : placeStep board col t ij = some (t2, some row)) :
    ∃ cells, row = cells ++ [col] ∧ ∀ c ∈ cells, c < board.points.length := by
  unfold placeStep at h
  split at h
  · exact Option.noConfusion h
  · rename_i o heq
    unfold placeRowAt at h
    split at h
    · split at h
      · exact Option.noConfusion h
      · rename_i cells hc
        injection h with h
        injection h with h1 h2
        injection h2 with h2
        exact ⟨cells, h2.symm, cellsOf_lt_length board.points _ cells hc⟩
    · injection h with h
      injection h with h1 h2
      exact Option.noConfusion h2

/-- Every row emitted by the placement loops for one orientation has the
piece column last and valid board cells before it. -/
theorem placeAux_rows (board : Tile) (col : Nat) :
    ∀ (ijs : List (Nat × Nat)) (t : Tile) (rows : List (List Nat)),
      placeAux board col ijs t = some rows →
      ∀ row ∈ rows, ∃ cells, row = cells ++ [col] ∧ ∀ c ∈ cells, c < board.points.length := by
  intro ijs
  induction ijs with
  | nil =>
    intro t rows h row hrow
    injection h with h
    rw [← h] at hrow
    exact absurd hrow (List.not_mem_nil row)
  | cons ij rest ih =>
    intro t rows h row hrow
    simp only [placeAux] at h
    split at h
    · exact Option.noConfusion h
    · rename_i t2 heq
      exact ih t2 rows h row hrow
    · rename_i t2 row2 heq
      cases hrest : placeAux board col rest t2 with
      | none => rw [hrest] at h; exact Option.noConfusion h
      | some rows2 =>
        rw [hrest] at h
        simp only [Option.map_some', Option.some.injEq] at h
        rw [← h] at hrow
        rcases List.mem_cons.1 hrow with h2 | h2
        · rw [h2]; exact placeStep_row board col t ij t2 row2 heq
        · exact ih t2 rows2 hrest row h2

/-- Every row emitted by the outer orientation loop has the form
`cells ++ [n + idx]` for the piece index `idx` of some processed orientation. -/
theorem placeAll_rows (board : Tile) (n : Nat) (sz : Nat × Nat) :
    ∀ (us : List (Tile × Nat)) (rows : List (List Nat)),
      placeAll board n sz us = some rows →
      ∀ row ∈ rows, ∃ cells idx, row = cells ++ [n + idx] ∧
        (∃ u ∈ us, u.2 = idx) ∧ ∀ c ∈ cells, c < board.points.length := by
  intro us
  induction us with
  | nil =>
    intro rows h row hrow
    injection h with h
    rw [← h] at hrow
    exact absurd hrow (List.not_mem_nil row)
  | cons u us ih =>
    intro rows h row hrow
    unfold placeAll at h
    cases ha : placeAux board (n + u.2) (ijList sz.1 sz.2) u.1 with
    | none => rw [ha] at h; cases h
    | some rs =>
      rw [ha] at h
      cases hrest : placeAll board n sz us with
      | none => rw [hrest] at h; cases h
      | some rest =>
        rw [hrest] at h
        injection h with h
        rw [← h] at hrow
        rcases List.mem_append.1 hrow with h2 | h2
        · obtain ⟨cells, hshape, hcell⟩ := placeAux_rows board (n + u.2) _ u.1 rs ha row h2
          exact ⟨cells, u.2, hshape, ⟨u, List.mem_cons_self u us, rfl⟩, hcell⟩
        · obtain ⟨cells, idx, hshape, hex, hcell⟩ := ih rest hrest row h2
          obtain ⟨u2, hu2, hidx⟩ := hex
          exact ⟨cells, idx, hshape, ⟨u2, List.mem_cons_of_mem u hu2, hidx⟩, hcell⟩

/-- The piece indices attached by the variant generation are bounded by the
number of pieces. -/
theorem buildUniqsAux_idx : ∀ (ts : List Tile) (i : Nat) (us : List (Tile × Nat)),
    buildUniqsAux i ts = some us → ∀ u ∈ us, i ≤ u.2 ∧ u.2 < i + ts.length := by
  intro ts
  induction ts with
  | nil =>
    intro i us h u hu
    injection h with h
    rw [← h] at hu
    exact absurd hu (List.not_mem_nil u)
  | cons t ts ih =>
    intro i us h u hu
    unfold buildUniqsAux at h
    cases hv : genVariants t with
    | none => rw [hv] at h; cases h
    | some vs =>
      rw [hv] at h
      cases hrest : buildUniqsAux (i + 1) ts with
      | none => rw [hrest] at h; cases h
      | some us2 =>
        rw [hrest] at h
        injection h with h
        rw [← h] at hu
        rcases List.mem_append.1 hu with h2 | h2
        · obtain ⟨v, hv2, he⟩ := List.mem_map.1 h2
          rw [← he]
          simp only [List.length_cons]
          omega
        · have := ih (i + 1) us2 hrest u h2
          simp only [List.length_cons]
          omega

theorem perm_insertBy {α : Type} (le : α → α → Bool) (a : α) :
    ∀ l : List α, (insertBy le a l).Perm (a :: l) := by
  intro l
  induction l with
  | nil => exact List.Perm.refl _
  | cons b l ih =>
    unfold insertBy
    cases hb : le a b
    · rw [if_neg (by simp [hb])]
      exact (ih.cons b).trans (List.Perm.swap a b l)
    · rw [if_pos (by simp [hb])]

theorem perm_sortBy {α : Type} (le : α → α → Bool) :
    ∀ l : List α, (sortBy le l).Perm l := by
  intro l
  induction l with
  | nil => exact List.Perm.refl _
  | cons a l ih =>
    unfold sortBy
    exact (perm_insertBy le a (sortBy le l)).trans (ih.cons a)

/-- Claim C3 (amended): every matrix row emitted by `build_matrix` ends in
the piece-identifier column `N + piece_index` (with a valid piece index), and
every other entry of the row is a valid board-cell index `< N`; the cell
prefix follows the orientation's (x, y)-sorted points and need not be an
ascending list (see the counterexample). -/
theorem claim_c3_amended (g : Game) (m : Matrix) (h : Game.build_matrix g = some m)
    (row : List Nat) (hrow : row ∈ m.rows) :
    ∃ cells idx, row = cells ++ [g.board.points.length + idx] ∧ idx < g.tiles.length ∧
      ∀ c ∈ cells, c < g.board.points.length := by
  unfold Game.build_matrix Game.build_matrix_st at h
  cases hu : buildUniqs g.tiles with
  | none =>
    simp only [hu, Option.map_none'] at h
    exact Option.noConfusion h
  | some u0 =>
    simp only [hu] at h
    cases hp : placeAll g.board g.board.points.length g.board.size (sortBy pairLeB u0.dedup) with
    | none =>
      simp only [hp, Option.map_none'] at h
      exact Option.noConfusion h
    | some rows =>
      simp only [hp, Option.map_some'] at h
      injection h with h
      rw [← h] at hrow
      obtain ⟨cells, idx, hshape, hex, hcell⟩ :=
        placeAll_rows g.board g.board.points.length g.board.size _ rows hp row hrow
      obtain ⟨u, humem, hidx⟩ := hex
      have h1 : u ∈ u0.dedup := ((perm_sortBy pairLeB u0.dedup).mem_iff).1 humem
      have h2 : u ∈ u0 := List.mem_dedup.1 h1
      unfold buildUniqs at hu
      have h3 := buildUniqsAux_idx g.tiles 0 u0 hu u h2
      exact ⟨cells, idx, hshape, by omega, hcell⟩

/-- Witness for C3 (amended) at the first row of the 2×2 game's matrix. -/
theorem claim_c3_witness :
    ∃ cells idx, [0, 2, 1, 4] = cells ++ [gC8.board.points.length + idx] ∧
      idx < gC8.tiles.length ∧ ∀ c ∈ cells, c < gC8.board.points.length :=
  claim_c3_amended gC8 mC8 eval_build_C8 [0, 2, 1, 4] (by decide)

/-- The offset of a point list is determined by its members: two permuted
lists have equal offsets (componentwise minima are membership facts). -/
theorem offsetOf_unique (l l2 : List Point) (o1 o2 : Point) (hperm : l.Perm l2)
    (h1 : offsetOf l = some o1) (h2 : offsetOf l2 = some o2) : o1 = o2 := by
  have le1 := offsetOf_le l o1 h1
  have le2 := offsetOf_le l2 o2 h2
  obtain ⟨⟨p, hp, hpx⟩, ⟨q, hq, hqy⟩⟩ := offsetOf_attained l o1 h1
  obtain ⟨⟨p2, hp2, hp2x⟩, ⟨q2, hq2, hq2y⟩⟩ := offsetOf_attained l2 o2 h2
  have hx1 : o2.x ≤ p.x := (le2 p (hperm.mem_iff.1 hp)).1
  have hx2 : o1.x ≤ p2.x := (le1 p2 (hperm.mem_iff.2 hp2)).1
  have hy1 : o2.y ≤ q.y := (le2 q (hperm.mem_iff.1 hq)).2
  have hy2 : o1.y ≤ q2.y := (le1 q2 (hperm.mem_iff.2 hq2)).2
  cases o1 with
  | mk x1 y1 =>
    cases o2 with
    | mk x2 y2 =>
      simp only [Point.mk.injEq]
      constructor
      · simp only at hpx hp2x hx1 hx2
        omega
      · simp only at hqy hq2y hy1 hy2
        omega

theorem offsetOf_eq_none (l : List Point) (h : offsetOf l = none) : l = [] := by
  cases l with
  | nil => rfl
  | cons q ps => exact Option.noConfusion h

/-- Sorting the points does not change the offset. -/
theorem offsetOf_sortPoints (l : List Point) : offsetOf (sortPoints l) = offsetOf l := by
  have hperm : (sortPoints l).Perm l := perm_sortBy pointLeB l
  cases h1 : offsetOf (sortPoints l) with
  | none =>
    have : sortPoints l = [] := offsetOf_eq_none _ h1
    have hl : l = [] := (List.Perm.nil_eq (this ▸ hperm)).symm
    rw [hl]
    rfl
  | some o1 =>
    cases h2 : offsetOf l with
    | none =>
      have hl : l = [] := offsetOf_eq_none _ h2
      have hlen : (sortPoints l).length = 0 := by rw [sortPoints, length_sortBy, hl]; rfl
      have hsn : sortPoints l = [] := List.eq_nil_of_length_eq_zero hlen
      rw [hsn] at h1
      exact Option.noConfusion h1
    | some o2 => exact congrArg some (offsetOf_unique _ _ o1 o2 hperm h1 h2)

/-- Any output of the variant normalization is anchored at the origin. -/
theorem normalize?_offset_zero (t t2 : Tile) (h : Tile.normalize? t = some t2) :
    Tile.offset? t2 = some ⟨0, 0⟩ := by
  unfold Tile.normalize? at h
  split at h
  · exact Option.noConfusion h
  · rename_i o heq
    injection h with h
    rw [← h]
    show offsetOf (sortPoints (t.translate o.neg).points) = some ⟨0, 0⟩
    rw [offsetOf_sortPoints]
    show offsetOf (t.points.map (fun p => p.add o.neg)) = some ⟨0, 0⟩
    rw [offsetOf_map_add]
    have ho : offsetOf t.points = some o := heq
    rw [ho]
    simp only [Option.map_some', Option.some.injEq]
    cases o with
    | mk x y =>
      unfold Point.add Point.neg
      simp

/-- Every variant collected by the orbit loop is origin-anchored. -/
theorem orbitAux_offset : ∀ (os : List Nat) (t : Tile) (vs : List Tile),
    orbitAux os t = some vs → ∀ v ∈ vs, Tile.offset? v = some ⟨0, 0⟩ := by
  intro os
  induction os with
  | nil =>
    intro t vs h v hv
    injection h with h
    rw [← h] at hv
    exact absurd hv (List.not_mem_nil v)
  | cons o os ih =>
    intro t vs h v hv
    unfold orbitAux at h
    split at h
    · exact Option.noConfusion h
    · rename_i t2 heq
      cases hrest : orbitAux os t2 with
      | none => rw [hrest] at h; exact Option.noConfusion h
      | some vs2 =>
        rw [hrest] at h
        simp only [Option.map_some', Option.some.injEq] at h
        rw [← h] at hv
        rcases List.mem_cons.1 hv with h2 | h2
        · rw [h2]
          exact normalize?_offset_zero _ t2 heq
        · exact ih t2 vs2 hrest v h2

/-- Every pair collected by the per-piece variant generation carries an
origin-anchored orientation. -/
theorem buildUniqsAux_offset : ∀ (ts : List Tile) (i : Nat) (us : List (Tile × Nat)),
    buildUniqsAux i ts = some us → ∀ u ∈ us, Tile.offset? u.1 = some ⟨0, 0⟩ := by
  intro ts
  induction ts with
  | nil =>
    intro i us h u hu
    injection h with h
    rw [← h] at hu
    exact absurd hu (List.not_mem_nil u)
  | cons t ts ih =>
    intro i us h u hu
    unfold buildUniqsAux at h
    cases hv : genVariants t with
    | none => rw [hv] at h; exact Option.noConfusion h
    | some vs =>
      rw [hv] at h
      cases hrest : buildUniqsAux (i + 1) ts with
      | none => rw [hrest] at h; exact Option.noConfusion h
      | some us2 =>
        rw [hrest] at h
        simp only [Option.map_some', Option.some.injEq] at h
        rw [← h] at hu
        rcases List.mem_append.1 hu with h2 | h2
        · obtain ⟨v, hv2, he⟩ := List.mem_map.1 h2
          rw [← he]
          exact orbitAux_offset [0, 1, 2, 3, 4, 5, 6, 7] t vs hv v hv2
        · exact ih (i + 1) us2 hrest u h2

theorem map_add_zero (l : List Point) : l.map (fun p => p.add ⟨0, 0⟩) = l := by
  induction l with
  | nil => rfl
  | cons p l ih =>
    simp only [List.map_cons, ih]
    congr 1
    cases p with
    | mk x y => simp [Point.add]

theorem idxOf?_of_mem : ∀ (l : List Point) (p : Point), p ∈ l → ∃ k, idxOf? l p = some k := by
  intro l
  induction l with
  | nil => intro p hp; exact absurd hp (List.not_mem_nil p)
  | cons q qs ih =>
    intro p hp
    unfold idxOf?
    by_cases hq : q = p
    · rw [if_pos hq]; exact ⟨0, rfl⟩
    · rw [if_neg hq]
      rcases List.mem_cons.1 hp with h | h
      · exact absurd h.symm hq
      · obtain ⟨k, hk⟩ := ih p h
        exact ⟨k + 1, by rw [hk]; rfl⟩

theorem cellsOf_isSome (bps : List Point) : ∀ pts : List Point, (∀ p ∈ pts, p ∈ bps) →
    ∃ cs, cellsOf bps pts = some cs := by
  intro pts
  induction pts with
  | nil => intro h; exact ⟨[], rfl⟩
  | cons p ps ih =>
    intro h
    obtain ⟨k, hk⟩ := idxOf?_of_mem bps p (h p (List.mem_cons_self p ps))
    obtain ⟨cs, hcs⟩ := ih (fun q hq => h q (List.mem_cons_of_mem p hq))
    refine ⟨k :: cs, ?_⟩
    unfold cellsOf
    rw [hk, hcs]
    rfl

/-- The threaded placement loop equals the anchor-independent enumeration:
if the loop's variant is the origin-anchored shape `base` translated by some
`d`, the loop emits exactly the rows of `rowAt base` over the anchor list,
because each iteration first re-anchors the variant to the current `(i, j)`. -/
theorem placeAux_eq (board : Tile) (col : Nat) (base : List Point)
    (hbase : offsetOf base = some ⟨0, 0⟩) :
    ∀ (ijs : List (Nat × Nat)) (t : Tile) (d : Point),
      t.points = base.map (fun p => p.add d) →
      placeAux board col ijs t =
        some (ijs.filterMap (fun ij => rowAt board col base ij.1 ij.2)) := by
  intro ijs
  induction ijs with
  | nil => intro t d ht; rfl
  | cons ij rest ih =>
    intro t d ht
    have hoff : Tile.offset? t = some d := by
      unfold Tile.offset?
      rw [ht, offsetOf_map_add, hbase]
      simp only [Option.map_some', Option.some.injEq]
      cases d with
      | mk x y => unfold Point.add; simp
    have htrans : (t.translate ((Point.mk (ij.1 : Int) (ij.2 : Int)).sub d)).points
        = base.map (fun p => p.add ⟨(ij.1 : Int), (ij.2 : Int)⟩) := by
      show (t.points.map _) = _
      rw [ht, List.map_map]
      apply List.map_congr_left
      intro p hp
      cases p with
      | mk px py =>
        cases d with
        | mk dx dy =>
          unfold Point.add Point.sub Function.comp
          simp only [Point.mk.injEq]
          constructor <;> ring
    simp only [placeAux, placeStep, hoff, placeRowAt, htrans, List.filterMap_cons, rowAt]
    by_cases hfit : ((base.map (fun p => p.add ⟨(ij.1 : Int), (ij.2 : Int)⟩)).all
        (fun p => decide (p ∈ board.points))) = true
    · rw [if_pos hfit, if_pos hfit]
      have hmem : ∀ p ∈ base.map (fun p => p.add ⟨(ij.1 : Int), (ij.2 : Int)⟩),
          p ∈ board.points := by
        intro p hp
        exact of_decide_eq_true (List.all_eq_true.1 hfit p hp)
      obtain ⟨cs, hcs⟩ := cellsOf_isSome board.points _ hmem
      rw [hcs]
      simp only [Option.map_some']
      rw [ih _ ⟨(ij.1 : Int), (ij.2 : Int)⟩ htrans]
      rfl
    · rw [if_neg hfit, if_neg hfit]
      exact ih _ ⟨(ij.1 : Int), (ij.2 : Int)⟩ htrans

theorem filterMap_flatMap {α β γ : Type} (l : List α) (g : α → List β) (f : β → Option γ) :
    (l.flatMap g).filterMap f = l.flatMap (fun a => (g a).filterMap f) := by
  induction l with
  | nil => rfl
  | cons a l ih => simp only [List.flatMap_cons, List.filterMap_append, ih]

/-- Splitting the anchor enumeration: filtering the (dx outer, dy inner) pair
list equals the nested flatMap over dx of filterMap over dy. -/
theorem ijList_filterMap {β : Type} (w h : Nat) (f : Nat × Nat → Option β) :
    (ijList w h).filterMap f =
      (List.range w).flatMap (fun i => (List.range h).filterMap (fun j => f (i, j))) := by
  unfold ijList
  rw [filterMap_flatMap]
  apply congrArg
  funext i
  rw [List.filterMap_map]
  rfl

/-- The whole outer loop over sorted orientations, as a flatMap of the
anchor-independent per-orientation enumerations. -/
theorem placeAll_eq (board : Tile) (n : Nat) (sz : Nat × Nat) :
    ∀ us : List (Tile × Nat), (∀ u ∈ us, Tile.offset? u.1 = some ⟨0, 0⟩) →
      placeAll board n sz us = some (us.flatMap (fun u =>
        (List.range sz.1).flatMap (fun i =>
          (List.range sz.2).filterMap (fun j => rowAt board (n + u.2) u.1.points i j)))) := by
  intro us
  induction us with
  | nil => intro h; rfl
  | cons u us ih =>
    intro h
    have h1 : offsetOf u.1.points = some ⟨0, 0⟩ := h u (List.mem_cons_self u us)
    have h2 := placeAux_eq board (n + u.2) u.1.points h1 (ijList sz.1 sz.2) u.1 ⟨0, 0⟩
      (map_add_zero u.1.points).symm
    simp only [placeAll, h2, ih (fun v hv => h v (List.mem_cons_of_mem u hv)),
      Option.map_some', Option.some.injEq, List.flatMap_cons]
    rw [ijList_filterMap]

/-- Claim C1 (amended): the rows of the matrix produced by `build_matrix` are
grouped by unique orientation in the lexicographic order of the sort key
(piece name, normalized point list, piece index) — not by piece input order —
and within one orientation the anchor varies with dx (the x coordinate) as
the outer loop and dy as the inner loop — not the other way around. -/
theorem claim_c1_amended (g : Game) (m : Matrix) (h : Game.build_matrix g = some m) :
    rowsSpecOrdered g = some m.rows := by
  unfold Game.build_matrix Game.build_matrix_st at h
  cases hu : buildUniqs g.tiles with
  | none =>
    simp only [hu, Option.map_none'] at h
    exact Option.noConfusion h
  | some u0 =>
    simp only [hu] at h
    have hoff : ∀ u ∈ sortBy pairLeB u0.dedup, Tile.offset? u.1 = some ⟨0, 0⟩ := by
      intro u hu2
      have h1 : u ∈ u0 := List.mem_dedup.1 ((perm_sortBy pairLeB u0.dedup).mem_iff.1 hu2)
      unfold buildUniqs at hu
      exact buildUniqsAux_offset g.tiles 0 u0 hu u h1
    rw [placeAll_eq g.board g.board.points.length g.board.size (sortBy pairLeB u0.dedup) hoff]
      at h
    simp only [Option.map_some', Option.some.injEq] at h
    unfold rowsSpecOrdered
    rw [hu]
    simp only [Option.map_some', Option.some.injEq]
    rw [← h]

/-- Witness for C1 (amended) at the two-monomino game `gTwo`. -/
theorem claim_c1_witness :
    rowsSpecOrdered gTwo =
      some [[0, 5], [2, 5], [1, 5], [3, 5], [0, 4], [2, 4], [1, 4], [3, 4]] :=
  claim_c1_amended gTwo mTwo eval_build_gTwo

end Polyomino
